import Mathlib

set_option maxHeartbeats 1000000

/-!
Shallow embedding of the greentic-provision repository (crates
greentic-provision-core and greentic-provision-cli) together with proofs
about its plan model, pipeline engine, applier, executor wrapper,
component resolution, manifest normalization / discovery, and the
conformance checks.

JSON values (serde_json::Value) are modelled by the inductive `JsonValue`;
ordered maps (std BTreeMap, iterated and compared in sorted key order) are
modelled as association lists together with a sorted-insertion operation
`insertEntry` and the Bool-valued sortedness predicate `sortedEntries`.
External effects (file systems, wasmtime, serde text encoding, stores) are
modelled by explicit function parameters or explicit state threading.
-/

/-- JSON value, mirroring serde_json::Value. Objects carry their fields as
an association list; numbers are restricted to integers, which covers every
numeric literal appearing in the verified code paths. -/
inductive JsonValue where
  | null
  | bool (b : Bool)
  | num (n : Int)
  | str (s : String)
  | arr (items : List JsonValue)
  | obj (fields : List (String × JsonValue))

/-- Strict lexicographic order on character lists by code point; on valid
Unicode strings this coincides with Rust's byte-wise UTF-8 ordering, the Ord
that BTreeMap keys use. -/
def charListLt : List Char → List Char → Bool
  | [], [] => false
  | [], _ :: _ => true
  | _ :: _, [] => false
  | a :: as, b :: bs =>
      if a = b then charListLt as bs
      else decide (a.toNat < b.toNat)

/-- Strict order on strings used for the sorted-entries representation of a
BTreeMap with String keys. -/
def keyLt (a b : String) : Bool := charListLt a.data b.data

/-- First value stored under `key`, mirroring map lookup. -/
def lookupEntry {V : Type} (key : String) : List (String × V) → Option V
  | [] => none
  | kv :: rest => if key = kv.1 then some kv.2 else lookupEntry key rest

/-- Insert `(key, val)` into a key-sorted association list, replacing an
existing binding of `key`; this is BTreeMap::insert on the sorted-entries
representation. -/
def insertEntry {V : Type} (key : String) (val : V) :
    List (String × V) → List (String × V)
  | [] => [(key, val)]
  | kv :: rest =>
      if keyLt key kv.1 then (key, val) :: kv :: rest
      else if key = kv.1 then (key, val) :: rest
      else kv :: insertEntry key val rest

/-- Insert every entry of `incoming` into `base` (last writer wins); this is
BTreeMap::extend as used by ProvisionPlan::merge_patch (types.rs). -/
def extendEntries {V : Type} (base incoming : List (String × V)) :
    List (String × V) :=
  incoming.foldl (fun acc kv => insertEntry kv.1 kv.2 acc) base

/-- `key` is strictly below every key of the list. -/
def keyBelowAll {V : Type} (key : String) : List (String × V) → Bool
  | [] => true
  | kv :: rest => keyLt key kv.1 && keyBelowAll key rest

/-- The association list has strictly increasing keys: the invariant of the
sorted-entries representation of a BTreeMap. -/
def sortedEntries {V : Type} : List (String × V) → Bool
  | [] => true
  | kv :: rest => keyBelowAll kv.1 rest && sortedEntries rest

/-- Left-biased choice on options, used to chase lookups through merges. -/
def optionOr {α : Type} : Option α → Option α → Option α
  | some v, _ => some v
  | none, o => o

/-- Diagnostic record from the external greentic_types crate; only its
identity matters to the verified code, so a single message field suffices. -/
structure Diagnostic where
  message : String
deriving DecidableEq

/-- types.rs ProvisionMode. -/
inductive ProvisionMode where
  | install
  | update
  | delete
  | dryRun
deriving DecidableEq

/-- types.rs ProvisionStep. -/
inductive ProvisionStep where
  | collect
  | validate
  | apply
  | summary
deriving DecidableEq

/-- types.rs TenantContext. -/
structure TenantContext where
  environment : Option String
  tenant : Option String
  team : Option String
  user : Option String
deriving DecidableEq

/-- types.rs ProvisionInputs. -/
structure ProvisionInputs where
  tenant : TenantContext
  provider_id : String
  install_id : String
  public_base_url : Option String
  answers : JsonValue
  existing_state : Option JsonValue

/-- types.rs RedactedValue. -/
structure RedactedValue where
  redacted : Bool
  value : Option String
deriving DecidableEq

/-- types.rs SecretsPatch. -/
structure SecretsPatch where
  set : List (String × RedactedValue)
  delete : List String

/-- types.rs WebhookOp. -/
structure WebhookOp where
  op : String
  id : Option String
  url : Option String
  metadata : List (String × JsonValue)

/-- types.rs SubscriptionOp. -/
structure SubscriptionOp where
  op : String
  id : Option String
  metadata : List (String × JsonValue)

/-- types.rs OAuthOp (tagged enum with a single Start variant). -/
inductive OAuthOp where
  | start (provider : String) (scopes : List String) (redirect_url : Option String)

/-- types.rs ProvisionPlan. -/
structure ProvisionPlan where
  config_patch : List (String × JsonValue)
  secrets_patch : SecretsPatch
  webhook_ops : List WebhookOp
  subscription_ops : List SubscriptionOp
  oauth_ops : List OAuthOp
  notes : List String

/-- ProvisionPlan::default(): every field empty. -/
def ProvisionPlan.empty : ProvisionPlan :=
  { config_patch := [], secrets_patch := { set := [], delete := [] },
    webhook_ops := [], subscription_ops := [], oauth_ops := [], notes := [] }

/-- types.rs ProvisionPlanPatch: every field optional, absence is a no-op. -/
structure ProvisionPlanPatch where
  config_patch : Option (List (String × JsonValue))
  secrets_patch : Option SecretsPatch
  webhook_ops : Option (List WebhookOp)
  subscription_ops : Option (List SubscriptionOp)
  oauth_ops : Option (List OAuthOp)
  notes : Option (List String)

/-- ProvisionPlan::merge_patch (types.rs lines 108-130): overwrite map
entries, append list entries, skip absent fields. -/
def ProvisionPlan.mergePatch (plan : ProvisionPlan) (patch : ProvisionPlanPatch) :
    ProvisionPlan :=
  let plan1 := match patch.config_patch with
    | some cp => { plan with config_patch := extendEntries plan.config_patch cp }
    | none => plan
  let plan2 := match patch.secrets_patch with
    | some sp =>
        { plan1 with secrets_patch :=
            { set := extendEntries plan1.secrets_patch.set sp.set,
              delete := plan1.secrets_patch.delete ++ sp.delete } }
    | none => plan1
  let plan3 := match patch.webhook_ops with
    | some ops => { plan2 with webhook_ops := plan2.webhook_ops ++ ops }
    | none => plan2
  let plan4 := match patch.subscription_ops with
    | some ops => { plan3 with subscription_ops := plan3.subscription_ops ++ ops }
    | none => plan3
  let plan5 := match patch.oauth_ops with
    | some ops => { plan4 with oauth_ops := plan4.oauth_ops ++ ops }
    | none => plan4
  match patch.notes with
  | some ns => { plan5 with notes := plan5.notes ++ ns }
  | none => plan5

/-- Combine an optional field of two patches with `f`; an absent side is a
no-op. Used to state the patch-combination of claim C2. -/
def mergeOptWith {α : Type} (f : α → α → α) : Option α → Option α → Option α
  | none, b => b
  | some a, none => some a
  | some a, some b => some (f a b)

/-- Combination of two plan patches with the merge rules of
ProvisionPlan::merge_patch: overwrite for the map fields, append for the
list fields, absent fields are no-ops (the `merge_patches` of claim C2). -/
def mergePatches (a b : ProvisionPlanPatch) : ProvisionPlanPatch where
  config_patch := mergeOptWith extendEntries a.config_patch b.config_patch
  secrets_patch := mergeOptWith
    (fun x y => { set := extendEntries x.set y.set, delete := x.delete ++ y.delete })
    a.secrets_patch b.secrets_patch
  webhook_ops := mergeOptWith (fun x y => x ++ y) a.webhook_ops b.webhook_ops
  subscription_ops := mergeOptWith (fun x y => x ++ y) a.subscription_ops b.subscription_ops
  oauth_ops := mergeOptWith (fun x y => x ++ y) a.oauth_ops b.oauth_ops
  notes := mergeOptWith (fun x y => x ++ y) a.notes b.notes

/-- types.rs StepOutput. -/
structure StepOutput where
  data : JsonValue
  diagnostics : List Diagnostic
  plan_patch : Option ProvisionPlanPatch
  questions : Option JsonValue

/-- StepOutput::default(). -/
def StepOutput.empty : StepOutput :=
  { data := JsonValue.null, diagnostics := [], plan_patch := none, questions := none }

/-- types.rs StepResult. -/
structure StepResult where
  step : ProvisionStep
  output : StepOutput

/-- types.rs ProvisionResult. -/
structure ProvisionResult where
  plan : ProvisionPlan
  diagnostics : List Diagnostic
  step_results : Option (List StepResult)

/-- engine.rs ProvisionContext. -/
structure ProvisionContext where
  inputs : ProvisionInputs
  mode : ProvisionMode
  step : ProvisionStep
  prior_results : List StepResult

/-- ProvisionEngine::run (engine.rs lines 41-71). The executor trait object
is modelled as the function `runStepF` (its single method run_step); the
for-loop over the four fixed steps becomes a fold threading the
step-result, plan and diagnostics accumulators. -/
def engineRun (runStepF : ProvisionStep → ProvisionContext → StepOutput)
    (mode : ProvisionMode) (inputs : ProvisionInputs) : ProvisionResult :=
  let final := [ProvisionStep.collect, ProvisionStep.validate,
      ProvisionStep.apply, ProvisionStep.summary].foldl
    (fun (acc : List StepResult × ProvisionPlan × List Diagnostic) step =>
      let ctx : ProvisionContext :=
        { inputs := inputs, mode := mode, step := step, prior_results := acc.1 }
      let output := runStepF step ctx
      let plan := match output.plan_patch with
        | some patch => ProvisionPlan.mergePatch acc.2.1 patch
        | none => acc.2.1
      (acc.1 ++ [{ step := step, output := output }], plan,
        acc.2.2 ++ output.diagnostics))
    ([], ProvisionPlan.empty, [])
  { plan := final.2.1, diagnostics := final.2.2, step_results := some final.1 }

/-- apply.rs ApplyMode. -/
inductive ApplyMode where
  | dryRun
  | apply
deriving DecidableEq

/-- apply.rs SubscriptionState. -/
structure SubscriptionState where
  id : String
  resource : String
  expiry : Option String
  last_sync : Option String
deriving DecidableEq

/-- apply.rs ProviderInstallRecord. -/
structure ProviderInstallRecord where
  tenant : TenantContext
  provider_id : String
  install_id : String
  config_namespace : String
  secrets_namespace : String
  subscriptions : List SubscriptionState
deriving DecidableEq

/-- apply.rs ApplyReport. -/
structure ApplyReport where
  mode : ApplyMode
  config_changes : List String
  secret_set_keys : List String
  secret_deleted_keys : List String
  oauth_ops : List OAuthOp
  subscription_state : List SubscriptionState
  install_record : ProviderInstallRecord

/-- apply.rs OAuthTokenSet. -/
structure OAuthTokenSet where
  access_token : String
  refresh_token : Option String

/-- The ConfigStore trait: a store value of type `C` plus its apply_patch
method, which returns the updated store and the changed keys. -/
structure ConfigStoreOps (C : Type) where
  applyPatch : C → String → List (String × JsonValue) → C × List String

/-- The SecretsStore trait (set_secret and delete_secret methods). -/
structure SecretsStoreOps (S : Type) where
  setSecret : S → String → String → String → S
  deleteSecret : S → String → String → S

/-- The OAuthHandler trait (start method, possibly stateful). -/
structure OAuthHandlerOps (O : Type) where
  start : O → OAuthOp → O × Option OAuthTokenSet

/-- The InstallStore trait (only put is reached by ProvisionApplier::apply). -/
structure InstallStoreOps (I : Type) where
  put : I → ProviderInstallRecord → I

/-- The four stores owned by a ProvisionApplier. -/
structure ApplierState (C S O I : Type) where
  config : C
  secrets : S
  oauth : O
  installs : I

/-- apply.rs provision_namespace. -/
def provisionNamespace (tenant : TenantContext) (providerId installId : String) :
    String :=
  let env := tenant.environment.getD "unknown"
  let tenantId := tenant.tenant.getD "unknown"
  let team := tenant.team.getD "unknown"
  "provision:" ++ env ++ ":" ++ tenantId ++ ":" ++ team ++ ":" ++ providerId
    ++ ":" ++ installId

/-- apply.rs redacted_to_value: None when redacted, otherwise the stored
optional value. -/
def redactedToValue (value : RedactedValue) : Option String :=
  if value.redacted then none else value.value

/-- apply.rs apply_subscription_ops. -/
def applySubscriptionOps (ops : List SubscriptionOp) : List SubscriptionState :=
  ops.filterMap (fun op =>
    if op.op = "register" ∨ op.op = "update" then
      some { id := op.id.getD "unknown",
             resource := match lookupEntry "resource" op.metadata with
               | some (JsonValue.str s) => s
               | _ => "unknown",
             expiry := match lookupEntry "expiry" op.metadata with
               | some (JsonValue.str s) => some s
               | _ => none,
             last_sync := none }
    else none)

/-- Loop body of the secrets_patch.set loop in ProvisionApplier::apply
(apply.rs lines 348-354): write the secret and record the key exactly when
redacted_to_value yields a value. -/
def secretSetStep {S : Type} (sOps : SecretsStoreOps S) (secretsNs : String)
    (acc : S × List String) (kv : String × RedactedValue) : S × List String :=
  match redactedToValue kv.2 with
  | some secretValue =>
      (sOps.setSecret acc.1 secretsNs kv.1 secretValue, acc.2 ++ [kv.1])
  | none => acc

/-- Loop body of the secrets_patch.delete loop (apply.rs lines 355-358). -/
def secretDeleteStep {S : Type} (sOps : SecretsStoreOps S) (secretsNs : String)
    (acc : S × List String) (key : String) : S × List String :=
  (sOps.deleteSecret acc.1 secretsNs key, acc.2 ++ [key])

/-- Loop body of the oauth_ops loop (apply.rs lines 381-400): echo the op;
in Apply mode also invoke the handler and store any returned tokens. -/
def oauthStep {S O : Type} (sOps : SecretsStoreOps S) (oOps : OAuthHandlerOps O)
    (secretsNs : String) (mode : ApplyMode)
    (acc : S × O × List OAuthOp) (op : OAuthOp) : S × O × List OAuthOp :=
  let withOp := acc.2.2 ++ [op]
  if mode = ApplyMode.apply then
    let started := oOps.start acc.2.1 op
    match started.2 with
    | some tokenSet =>
        let s1 := sOps.setSecret acc.1 secretsNs "oauth_access_token"
          tokenSet.access_token
        let s2 := match tokenSet.refresh_token with
          | some refresh => sOps.setSecret s1 secretsNs "oauth_refresh_token" refresh
          | none => s1
        (s2, started.1, withOp)
    | none => (acc.1, started.1, withOp)
  else (acc.1, acc.2.1, withOp)

/-- ProvisionApplier::apply (apply.rs lines 334-411), with the four store
trait objects as explicit state of types C, S, O, I threaded through the
call; returns the final stores and the ApplyReport. -/
def applierApply {C S O I : Type} (cOps : ConfigStoreOps C) (sOps : SecretsStoreOps S)
    (oOps : OAuthHandlerOps O) (iOps : InstallStoreOps I)
    (inputs : ProvisionInputs) (st : ApplierState C S O I)
    (result : ProvisionResult) (mode : ApplyMode) :
    ApplierState C S O I × ApplyReport :=
  let ns := provisionNamespace inputs.tenant inputs.provider_id inputs.install_id
  let secretsNs := ns ++ ":secrets"
  let afterStores :=
    if mode = ApplyMode.apply then
      let configRes := cOps.applyPatch st.config ns result.plan.config_patch
      let setRes := result.plan.secrets_patch.set.foldl
        (secretSetStep sOps secretsNs) (st.secrets, [])
      let delRes := result.plan.secrets_patch.delete.foldl
        (secretDeleteStep sOps secretsNs) (setRes.1, [])
      ({ st with config := configRes.1, secrets := delRes.1 },
        configRes.2, setRes.2, delRes.2)
    else
      (st, result.plan.config_patch.map Prod.fst,
        result.plan.secrets_patch.set.map Prod.fst,
        result.plan.secrets_patch.delete)
  let st1 := afterStores.1
  let subscriptionState := applySubscriptionOps result.plan.subscription_ops
  let installRecord : ProviderInstallRecord :=
    { tenant := inputs.tenant, provider_id := inputs.provider_id,
      install_id := inputs.install_id, config_namespace := ns,
      secrets_namespace := secretsNs, subscriptions := subscriptionState }
  let st2 :=
    if mode = ApplyMode.apply then
      { st1 with installs := iOps.put st1.installs installRecord }
    else st1
  let oauthRes := result.plan.oauth_ops.foldl
    (oauthStep sOps oOps secretsNs mode) (st2.secrets, st2.oauth, [])
  let st3 := { st2 with secrets := oauthRes.1, oauth := oauthRes.2.1 }
  (st3,
    { mode := mode, config_changes := afterStores.2.1,
      secret_set_keys := afterStores.2.2.1,
      secret_deleted_keys := afterStores.2.2.2,
      oauth_ops := oauthRes.2.2,
      subscription_state := subscriptionState,
      install_record := installRecord })

/-- executor.rs ExecutorError (the Io, Compile, Wat, Memory and OutputJson
variants carry the rendered message of the wrapped external error). -/
inductive ExecutorError where
  | componentNotFound (step : String)
  | ioError (msg : String)
  | compile (msg : String)
  | wat (msg : String)
  | memory (msg : String)
  | trap (msg : String)
  | outputTooLarge (bytes : Nat)
  | inputTooLarge (bytes : Nat)
  | outputJson (msg : String)
deriving DecidableEq

/-- Display rendering of ExecutorError, following the thiserror format
strings in executor.rs lines 32-52. -/
def ExecutorError.message : ExecutorError → String
  | .componentNotFound step => "component not found for step: " ++ step
  | .ioError msg => "failed to read component: " ++ msg
  | .compile msg => "failed to compile component: " ++ msg
  | .wat msg => "failed to parse wat: " ++ msg
  | .memory msg => "memory access error: " ++ msg
  | .trap msg => "execution trap: " ++ msg
  | .outputTooLarge bytes => "output too large: " ++ toString bytes ++ " bytes"
  | .inputTooLarge bytes => "input too large: " ++ toString bytes ++ " bytes"
  | .outputJson msg => "invalid output JSON: " ++ msg

/-- Inner loop of WasmtimeExecutor::resolve_component (executor.rs lines
96-107): for one candidate name, walk the roots in order and per root try
the .wasm path then the .wat path. The filesystem is the predicate
`exists?`. -/
def searchRoots (exists? : String → Bool) (candidate : String) :
    List String → Option String
  | [] => none
  | root :: rest =>
      let wasmPath := root ++ "/" ++ candidate ++ ".wasm"
      if exists? wasmPath then some wasmPath
      else
        let watPath := root ++ "/" ++ candidate ++ ".wat"
        if exists? watPath then some watPath
        else searchRoots exists? candidate rest

/-- Outer loop of WasmtimeExecutor::resolve_component: candidates in order,
first hit wins. -/
def searchCandidates (exists? : String → Bool) (roots : List String) :
    List String → Option String
  | [] => none
  | candidate :: rest =>
      match searchRoots exists? candidate roots with
      | some path => some path
      | none => searchCandidates exists? roots rest

/-- WasmtimeExecutor::resolve_component (executor.rs lines 85-110): the
candidate names are setup_default__{step} then setup_default; the roots are
pack_root/components, pack_root/wasm, pack_root. -/
def resolveComponent (exists? : String → Bool) (packRoot stepName : String) :
    Except ExecutorError String :=
  match searchCandidates exists?
      [packRoot ++ "/components", packRoot ++ "/wasm", packRoot]
      ["setup_default__" ++ stepName, "setup_default"] with
  | some path => Except.ok path
  | none => Except.error (ExecutorError.componentNotFound stepName)

/-- Step-name rendering used by the run_step wrapper (executor.rs 193-198). -/
def stepNameOf : ProvisionStep → String
  | .collect => "collect"
  | .validate => "validate"
  | .apply => "apply"
  | .summary => "summary"

/-- WasmtimeExecutor::run_step (executor.rs lines 191-210). The fallible
run_named_step entry point (component resolution, wasmtime execution and
output decoding) is the parameter `runNamed`; on any ExecutorError the
wrapper degrades to a StepOutput whose data carries the error message and
step name, with no diagnostics, patch or questions. -/
def wasmRunStep
    (runNamed : String → ProvisionContext → Except ExecutorError StepOutput)
    (step : ProvisionStep) (ctx : ProvisionContext) : StepOutput :=
  let stepName := stepNameOf step
  match runNamed stepName ctx with
  | Except.ok output => output
  | Except.error err =>
      { data := JsonValue.obj
          [("error", JsonValue.str err.message), ("step", JsonValue.str stepName)],
        diagnostics := [], plan_patch := none, questions := none }

/-- discovery.rs PackFlow. -/
structure PackFlow where
  entry : Option String
  id : Option String
  name : Option String
deriving DecidableEq

/-- discovery.rs EntryFlowDescriptor. -/
structure EntryFlowDescriptor where
  entry : Option String
  id : Option String
  name : Option String
  flow_id : Option String
deriving DecidableEq

/-- discovery.rs EntryFlows (untagged union of the three historical
shapes); the Map variant keeps the BTreeMap as an entry list. -/
inductive EntryFlows where
  | empty
  | map (entries : List (String × String))
  | list (descriptors : List EntryFlowDescriptor)
deriving DecidableEq

/-- discovery.rs PackMeta. -/
structure PackMeta where
  entry_flows : EntryFlows
  requires_public_base_url : Bool
  capabilities : List String
deriving DecidableEq

/-- PackMeta::default(). -/
def PackMeta.default : PackMeta :=
  { entry_flows := EntryFlows.empty, requires_public_base_url := false,
    capabilities := [] }

/-- discovery.rs PackManifest. -/
structure PackManifest where
  id : String
  version : String
  meta : PackMeta
  flows : List PackFlow
deriving DecidableEq

/-- discovery.rs ProvisionDescriptor. -/
structure ProvisionDescriptor where
  pack_id : String
  pack_version : String
  setup_entry_flow : String
  requirements_flow : Option String
  subscriptions_flow : Option String
  requires_public_base_url : Bool
  outputs : List String
deriving DecidableEq

/-- discovery.rs entry_flow_from_meta. -/
def entryFlowFromMeta (entryFlows : EntryFlows) (entryName : String) :
    Option String :=
  match entryFlows with
  | .empty => none
  | .map entries => lookupEntry entryName entries
  | .list descriptors => descriptors.findSome? (fun flow =>
      let entry := flow.entry.orElse (fun _ => flow.name)
      if entry = some entryName then
        (flow.id.orElse (fun _ => flow.flow_id)).orElse (fun _ => flow.name)
      else none)

/-- discovery.rs entry_flow_id (lines 82-97): meta.entry_flows first, then
scan flows matching on entry (fallback name) and returning id (fallback
name). -/
def entryFlowId (pack : PackManifest) (entryName : String) : Option String :=
  match entryFlowFromMeta pack.meta.entry_flows entryName with
  | some flowId => some flowId
  | none => pack.flows.findSome? (fun flow =>
      let entry := flow.entry.orElse (fun _ => flow.name)
      if entry = some entryName then flow.id.orElse (fun _ => flow.name)
      else none)

/-- DefaultProvisionPackDiscovery::discover (discovery.rs lines 64-80). -/
def discover (pack : PackManifest) : Option ProvisionDescriptor :=
  match entryFlowId pack "setup" with
  | none => none
  | some setupEntryFlow =>
      some { pack_id := pack.id, pack_version := pack.version,
             setup_entry_flow := setupEntryFlow,
             requirements_flow := entryFlowId pack "requirements",
             subscriptions_flow := entryFlowId pack "subscriptions",
             requires_public_base_url := pack.meta.requires_public_base_url,
             outputs := pack.meta.capabilities }

/-- Map lookup on a decoded JSON object's field list (serde_json::Map::get). -/
def objFind (fields : List (String × JsonValue)) (key : String) : Option JsonValue :=
  lookupEntry key fields

/-- serde_json::Map::contains_key. -/
def objContains (fields : List (String × JsonValue)) (key : String) : Bool :=
  (objFind fields key).isSome

/-- serde_json::Map::remove (drops every binding of the key). -/
def objRemove : List (String × JsonValue) → String → List (String × JsonValue)
  | [], _ => []
  | kv :: rest, key =>
      if kv.1 = key then objRemove rest key else kv :: objRemove rest key

/-- serde_json::Map::insert (replace an existing binding, else add one). -/
def objInsert : List (String × JsonValue) → String → JsonValue →
    List (String × JsonValue)
  | [], key, v => [(key, v)]
  | kv :: rest, key, v =>
      if kv.1 = key then (key, v) :: rest else kv :: objInsert rest key v

/-- Deserialize a JSON value that must be a string (serde String field). -/
def deserString (v : JsonValue) : Except String String :=
  match v with
  | JsonValue.str s => Except.ok s
  | _ => Except.error "expected string"

/-- Deserialize an optional string field (serde Option of String: absent or
null is none, a string is some, anything else fails). -/
def deserOptString : Option JsonValue → Except String (Option String)
  | none => Except.ok none
  | some JsonValue.null => Except.ok none
  | some (JsonValue.str s) => Except.ok (some s)
  | some _ => Except.error "expected string or null"

/-- serde derive for discovery.rs PackFlow (unknown fields are ignored). -/
def deserPackFlow (v : JsonValue) : Except String PackFlow :=
  match v with
  | JsonValue.obj fields => do
      let entry ← deserOptString (objFind fields "entry")
      let id ← deserOptString (objFind fields "id")
      let name ← deserOptString (objFind fields "name")
      Except.ok { entry := entry, id := id, name := name }
  | _ => Except.error "expected object"

/-- serde derive for discovery.rs EntryFlowDescriptor. -/
def deserEntryFlowDescriptor (v : JsonValue) : Except String EntryFlowDescriptor :=
  match v with
  | JsonValue.obj fields => do
      let entry ← deserOptString (objFind fields "entry")
      let id ← deserOptString (objFind fields "id")
      let name ← deserOptString (objFind fields "name")
      let flowId ← deserOptString (objFind fields "flow_id")
      Except.ok { entry := entry, id := id, name := name, flow_id := flowId }
  | _ => Except.error "expected object"

/-- serde untagged deserialization of discovery.rs EntryFlows: the unit
variant Empty matches null, Map matches an all-string object, List matches
an array of descriptors. -/
def deserEntryFlows (v : JsonValue) : Except String EntryFlows :=
  match v with
  | JsonValue.null => Except.ok EntryFlows.empty
  | JsonValue.obj fields =>
      match fields.mapM (fun kv =>
          match kv.2 with
          | JsonValue.str s => some (kv.1, s)
          | _ => none) with
      | some entries => Except.ok (EntryFlows.map entries)
      | none => Except.error "unsupported entry_flows shape"
  | JsonValue.arr items => do
      let descriptors ← items.mapM deserEntryFlowDescriptor
      Except.ok (EntryFlows.list descriptors)
  | _ => Except.error "unsupported entry_flows shape"

/-- serde derive for discovery.rs PackMeta (every field defaulted). -/
def deserPackMeta (v : JsonValue) : Except String PackMeta :=
  match v with
  | JsonValue.obj fields => do
      let entryFlows ← match objFind fields "entry_flows" with
        | none => Except.ok EntryFlows.empty
        | some x => deserEntryFlows x
      let requiresPublicBaseUrl ← match objFind fields "requires_public_base_url" with
        | none => Except.ok false
        | some (JsonValue.bool b) => Except.ok b
        | some _ => Except.error "expected bool"
      let capabilities ← match objFind fields "capabilities" with
        | none => Except.ok []
        | some (JsonValue.arr items) => items.mapM deserString
        | some _ => Except.error "expected array"
      Except.ok { entry_flows := entryFlows,
                  requires_public_base_url := requiresPublicBaseUrl,
                  capabilities := capabilities }
  | _ => Except.error "expected object"

/-- serde derive for discovery.rs PackManifest: id and version are required
strings, meta and flows are defaulted, unknown fields are ignored. -/
def deserPackManifest (v : JsonValue) : Except String PackManifest :=
  match v with
  | JsonValue.obj fields => do
      let id ← match objFind fields "id" with
        | some x => deserString x
        | none => Except.error "missing field: id"
      let version ← match objFind fields "version" with
        | some x => deserString x
        | none => Except.error "missing field: version"
      let meta ← match objFind fields "meta" with
        | none => Except.ok PackMeta.default
        | some x => deserPackMeta x
      let flows ← match objFind fields "flows" with
        | none => Except.ok []
        | some (JsonValue.arr items) => items.mapM deserPackFlow
        | some _ => Except.error "expected array"
      Except.ok { id := id, version := version, meta := meta, flows := flows }
  | _ => Except.error "expected object"

/-- cli main.rs resolve_pack_id (lines 533-552): a string alias is moved as
is; a numeric alias indexes symbols.pack_ids; anything else or a failed
lookup yields none. -/
def resolvePackId (map : List (String × JsonValue)) : Option JsonValue :=
  match (objFind map "pack_id").orElse (fun _ => objFind map "packId") with
  | some (JsonValue.num index) =>
      if 0 ≤ index then
        match objFind map "symbols" with
        | some (JsonValue.obj symbols) =>
            match objFind symbols "pack_ids" with
            | some (JsonValue.arr packIds) =>
                match packIds.get? index.toNat with
                | some (JsonValue.str packId) => some (JsonValue.str packId)
                | _ => none
            | _ => none
        | _ => none
      else none
  | some value => some value
  | none => none

/-- cli main.rs normalize_manifest_object (lines 501-531): collapse the
pack_id/packId aliases into id and pack_version/packVersion into version,
always dropping the aliases. -/
def normalizeManifestObject (map0 : List (String × JsonValue)) :
    List (String × JsonValue) :=
  let map1 :=
    if objContains map0 "id" then objRemove (objRemove map0 "pack_id") "packId"
    else map0
  let map2 :=
    if objContains map1 "id" then map1
    else
      let withId := match resolvePackId map1 with
        | some value => objInsert map1 "id" value
        | none => map1
      objRemove (objRemove withId "pack_id") "packId"
  let map3 :=
    if objContains map2 "version" then
      objRemove (objRemove map2 "pack_version") "packVersion"
    else map2
  if objContains map3 "version" then map3
  else
    let withVersion :=
      match (objFind map3 "pack_version").orElse (fun _ => objFind map3 "packVersion") with
      | some value => objInsert map3 "version" value
      | none => map3
    objRemove (objRemove withVersion "pack_version") "packVersion"

/-- cli main.rs normalize_manifest_value (lines 484-499): descend into a
nested pack / manifest / pack_manifest object when present, then normalize;
non-objects are rejected. -/
def normalizeManifestValue : JsonValue → Option JsonValue
  | JsonValue.obj map =>
      match ((objFind map "pack").orElse
          (fun _ => objFind map "manifest")).orElse
          (fun _ => objFind map "pack_manifest") with
      | some (JsonValue.obj nested) =>
          some (JsonValue.obj (normalizeManifestObject nested))
      | _ => some (JsonValue.obj (normalizeManifestObject map))
  | _ => none

/-- cli main.rs load_manifest_from_file, JSON branch (lines 465-469): the
text has been decoded to a JSON value by the external parser; the
descriptor is deserialized directly, with no normalization. -/
def loadManifestJson (v : JsonValue) : Except String PackManifest :=
  deserPackManifest v

/-- cli main.rs load_manifest_from_cbor_bytes (lines 472-482): first try
deserializing the decoded value directly; on failure normalize and
deserialize the normalized object. -/
def loadManifestCbor (v : JsonValue) : Except String PackManifest :=
  match deserPackManifest v with
  | Except.ok manifest => Except.ok manifest
  | Except.error _ =>
      match normalizeManifestValue v with
      | some normalized => deserPackManifest normalized
      | none => Except.error "unsupported CBOR manifest shape"

/-- cli main.rs check_conformance (lines 318-335): serialize the plan twice
and flag nondeterminism, then flag any non-redacted or value-carrying entry
of secrets_patch.set. The serde_json serializer is the external function
`serializePlan`. -/
def checkConformance (serializePlan : ProvisionPlan → String)
    (result : ProvisionResult) : List String :=
  let serializedOnce := serializePlan result.plan
  let serializedTwice := serializePlan result.plan
  let errors :=
    if serializedOnce ≠ serializedTwice then
      ["plan serialization not deterministic"]
    else []
  if result.plan.secrets_patch.set.any
      (fun kv => !kv.2.redacted || kv.2.value.isSome) then
    errors ++ ["secrets_patch contains non-redacted values"]
  else errors

theorem charListLt_irrefl (l : List Char) : charListLt l l = false := by
  induction l with
  | nil => rfl
  | cons c cs ih => simp [charListLt, ih]

theorem charListLt_trans : ∀ {a b c : List Char}, charListLt a b = true →
    charListLt b c = true → charListLt a c = true := by
  intro a
  induction a with
  | nil =>
      intro b c h1 h2
      cases b with
      | nil => simp [charListLt] at h1
      | cons bh btl =>
          cases c with
          | nil => simp [charListLt] at h2
          | cons ch ctl => rfl
  | cons ah atl ih =>
      intro b c h1 h2
      cases b with
      | nil => simp [charListLt] at h1
      | cons bh btl =>
          cases c with
          | nil => simp [charListLt] at h2
          | cons ch ctl =>
              simp only [charListLt] at h1 h2 ⊢
              by_cases hab : ah = bh
              · subst hab
                rw [if_pos rfl] at h1
                by_cases hbc : ah = ch
                · subst hbc
                  rw [if_pos rfl] at h2
                  rw [if_pos rfl]
                  exact ih h1 h2
                · rw [if_neg hbc] at h2
                  rw [if_neg hbc]
                  exact h2
              · rw [if_neg hab] at h1
                by_cases hbc : bh = ch
                · subst hbc
                  rw [if_neg hab]
                  exact h1
                · rw [if_neg hbc] at h2
                  have hnab := of_decide_eq_true h1
                  have hnbc := of_decide_eq_true h2
                  have hnac : ah.toNat < ch.toNat := Nat.lt_trans hnab hnbc
                  have hne : ah ≠ ch := by
                    intro he
                    subst he
                    exact absurd hnac (Nat.lt_irrefl _)
                  rw [if_neg hne]
                  exact decide_eq_true hnac

theorem charListLt_conn : ∀ {a b : List Char}, charListLt a b = false →
    charListLt b a = false → a = b := by
  intro a
  induction a with
  | nil =>
      intro b h1 _
      cases b with
      | nil => rfl
      | cons bh btl => simp [charListLt] at h1
  | cons ah atl ih =>
      intro b h1 h2
      cases b with
      | nil => simp [charListLt] at h2
      | cons bh btl =>
          simp only [charListLt] at h1 h2
          by_cases hab : ah = bh
          · subst hab
            rw [if_pos rfl] at h1 h2
            rw [ih h1 h2]
          · have hba : bh ≠ ah := fun e => hab e.symm
            rw [if_neg hab] at h1
            rw [if_neg hba] at h2
            have hn1 := of_decide_eq_false h1
            have hn2 := of_decide_eq_false h2
            have heq : ah.toNat = bh.toNat := Nat.le_antisymm
              (Nat.le_of_not_lt hn2) (Nat.le_of_not_lt hn1)
            exact absurd (Char.eq_of_val_eq (UInt32.ext heq)) hab

theorem keyLt_irrefl (a : String) : keyLt a a = false :=
  charListLt_irrefl a.data

theorem keyLt_trans {a b c : String} (h1 : keyLt a b = true)
    (h2 : keyLt b c = true) : keyLt a c = true :=
  charListLt_trans h1 h2

theorem keyLt_conn {a b : String} (h1 : keyLt a b = false)
    (h2 : keyLt b a = false) : a = b := by
  have h := charListLt_conn h1 h2
  cases a
  cases b
  simp_all

theorem keyLt_ne {a b : String} (h : keyLt a b = true) : a ≠ b := by
  intro he
  subst he
  rw [keyLt_irrefl] at h
  exact Bool.noConfusion h

theorem keyLt_total_of_ne {a b : String} (h1 : keyLt a b = false)
    (h2 : a ≠ b) : keyLt b a = true := by
  cases hba : keyLt b a with
  | false => exact absurd (keyLt_conn h1 hba) h2
  | true => rfl

theorem lookupEntry_insertEntry {V : Type} (key k : String) (val : V)
    (m : List (String × V)) :
    lookupEntry k (insertEntry key val m) =
      if k = key then some val else lookupEntry k m := by
  induction m with
  | nil =>
      simp only [insertEntry, lookupEntry]
  | cons kv rest ih =>
      simp only [insertEntry]
      by_cases hlt : keyLt key kv.1 = true
      · rw [if_pos hlt]
        simp only [lookupEntry]
      · rw [if_neg hlt]
        by_cases heq : key = kv.1
        · rw [if_pos heq]
          simp only [lookupEntry]
          by_cases hk : k = key
          · simp [hk, heq]
          · have hk1 : k ≠ kv.1 := heq ▸ hk
            simp [hk, hk1]
        · rw [if_neg heq]
          simp only [lookupEntry, ih]
          by_cases hk1 : k = kv.1
          · have hk2 : k ≠ key := fun e => heq (e ▸ hk1)
            have hk3 : kv.1 ≠ key := fun e => heq e.symm
            simp [hk1, hk2, hk3]
          · simp [hk1]

theorem keyBelowAll_insertEntry {V : Type} (x key : String) (val : V)
    (m : List (String × V)) :
    keyBelowAll x (insertEntry key val m) = (keyLt x key && keyBelowAll x m) := by
  induction m with
  | nil => simp [insertEntry, keyBelowAll]
  | cons kv rest ih =>
      simp only [insertEntry]
      by_cases hlt : keyLt key kv.1 = true
      · rw [if_pos hlt]
        simp only [keyBelowAll]
      · rw [if_neg hlt]
        by_cases heq : key = kv.1
        · rw [if_pos heq]
          simp only [keyBelowAll]
          rw [heq]
          cases hx : keyLt x kv.1 <;> simp [hx]
        · rw [if_neg heq]
          simp only [keyBelowAll, ih, Bool.and_left_comm]

theorem keyBelowAll_trans {V : Type} {x y : String} {m : List (String × V)}
    (hxy : keyLt x y = true) (h : keyBelowAll y m = true) :
    keyBelowAll x m = true := by
  induction m with
  | nil => rfl
  | cons kv rest ih =>
      simp only [keyBelowAll, Bool.and_eq_true] at h ⊢
      exact ⟨keyLt_trans hxy h.1, ih h.2⟩

theorem sortedEntries_insertEntry {V : Type} (key : String) (val : V)
    {m : List (String × V)} (h : sortedEntries m = true) :
    sortedEntries (insertEntry key val m) = true := by
  induction m with
  | nil => rfl
  | cons kv rest ih =>
      simp only [sortedEntries, Bool.and_eq_true] at h
      simp only [insertEntry]
      by_cases hlt : keyLt key kv.1 = true
      · rw [if_pos hlt]
        simp only [sortedEntries, keyBelowAll, Bool.and_eq_true]
        exact ⟨⟨hlt, keyBelowAll_trans hlt h.1⟩, h.1, h.2⟩
      · rw [if_neg hlt]
        by_cases heq : key = kv.1
        · rw [if_pos heq]
          simp only [sortedEntries, Bool.and_eq_true]
          exact ⟨heq ▸ h.1, h.2⟩
        · rw [if_neg heq]
          simp only [sortedEntries, Bool.and_eq_true]
          refine ⟨?_, ih h.2⟩
          rw [keyBelowAll_insertEntry]
          have hgt : keyLt kv.1 key = true :=
            keyLt_total_of_ne (Bool.eq_false_iff.mpr hlt) heq
          rw [hgt, h.1]
          rfl

theorem sortedEntries_extendEntries {V : Type} (incoming : List (String × V)) :
    ∀ (base : List (String × V)), sortedEntries base = true →
      sortedEntries (extendEntries base incoming) = true := by
  induction incoming with
  | nil => intro base h; exact h
  | cons kv rest ih =>
      intro base h
      exact ih (insertEntry kv.1 kv.2 base) (sortedEntries_insertEntry kv.1 kv.2 h)

theorem keyBelowAll_lookupEntry_none {V : Type} {x : String}
    {m : List (String × V)} (h : keyBelowAll x m = true) :
    lookupEntry x m = none := by
  induction m with
  | nil => rfl
  | cons kv rest ih =>
      simp only [keyBelowAll, Bool.and_eq_true] at h
      simp only [lookupEntry]
      rw [if_neg (keyLt_ne h.1), ih h.2]

theorem keyLt_of_keyBelowAll_lookup {V : Type} {x k : String} {v : V} :
    ∀ {m : List (String × V)}, keyBelowAll x m = true →
      lookupEntry k m = some v → keyLt x k = true := by
  intro m
  induction m with
  | nil => intro _ hl; exact absurd hl (by simp [lookupEntry])
  | cons kv rest ih =>
      intro hb hl
      simp only [keyBelowAll, Bool.and_eq_true] at hb
      simp only [lookupEntry] at hl
      by_cases hk : k = kv.1
      · exact hk ▸ hb.1
      · rw [if_neg hk] at hl
        exact ih hb.2 hl

theorem lookupEntry_extendEntries {V : Type} {incoming : List (String × V)}
    (hs : sortedEntries incoming = true) (k : String) :
    ∀ (base : List (String × V)),
      lookupEntry k (extendEntries base incoming) =
        optionOr (lookupEntry k incoming) (lookupEntry k base) := by
  induction incoming with
  | nil =>
      intro base
      simp [extendEntries, lookupEntry, optionOr]
  | cons kv rest ih =>
      intro base
      simp only [sortedEntries, Bool.and_eq_true] at hs
      have hstep : extendEntries base (kv :: rest) =
          extendEntries (insertEntry kv.1 kv.2 base) rest := rfl
      rw [hstep, ih hs.2, lookupEntry_insertEntry]
      simp only [lookupEntry]
      by_cases hk : k = kv.1
      · rw [if_pos hk, if_pos hk]
        have hn : lookupEntry k rest = none := hk ▸ keyBelowAll_lookupEntry_none hs.1
        rw [hn]
        rfl
      · rw [if_neg hk, if_neg hk]

theorem sortedEntries_lookup_ext {V : Type} :
    ∀ {m m' : List (String × V)}, sortedEntries m = true →
      sortedEntries m' = true →
      (∀ k, lookupEntry k m = lookupEntry k m') → m = m' := by
  intro m
  induction m with
  | nil =>
      intro m' _ _ hl
      cases m' with
      | nil => rfl
      | cons kv' rest' =>
          have h := hl kv'.1
          simp [lookupEntry] at h
  | cons kv rest ih =>
      intro m' hm hm' hl
      cases m' with
      | nil =>
          have h := hl kv.1
          simp [lookupEntry] at h
      | cons kv' rest' =>
          simp only [sortedEntries, Bool.and_eq_true] at hm hm'
          have hkeys : kv.1 = kv'.1 := by
            by_contra hne
            have h1 := hl kv.1
            have h2 := hl kv'.1
            simp only [lookupEntry, if_pos rfl] at h1 h2
            rw [if_neg hne] at h1
            rw [if_neg (fun e => hne e.symm)] at h2
            have hlt1 : keyLt kv'.1 kv.1 = true :=
              keyLt_of_keyBelowAll_lookup hm'.1 h1.symm
            have hlt2 : keyLt kv.1 kv'.1 = true :=
              keyLt_of_keyBelowAll_lookup hm.1 h2
            have : keyLt kv.1 kv.1 = true := keyLt_trans hlt2 hlt1
            rw [keyLt_irrefl] at this
            exact Bool.noConfusion this
          have hvals : kv.2 = kv'.2 := by
            have h1 := hl kv.1
            simp only [lookupEntry, if_pos rfl] at h1
            rw [if_pos hkeys] at h1
            exact Option.some.inj h1
          have htails : rest = rest' := by
            apply ih hm.2 hm'.2
            intro k
            by_cases hk : k = kv.1
            · subst hk
              rw [keyBelowAll_lookupEntry_none hm.1,
                  keyBelowAll_lookupEntry_none (hkeys ▸ hm'.1)]
            · have h := hl k
              simp only [lookupEntry] at h
              rw [if_neg hk, if_neg (hkeys ▸ hk)] at h
              exact h
          have hpair : kv = kv' := Prod.ext hkeys hvals
          rw [hpair, htails]

theorem optionOr_assoc {α : Type} (x y z : Option α) :
    optionOr x (optionOr y z) = optionOr (optionOr x y) z := by
  cases x <;> cases y <;> simp [optionOr]

theorem extendEntries_assoc {V : Type} {base a b : List (String × V)}
    (hbase : sortedEntries base = true) (ha : sortedEntries a = true)
    (hb : sortedEntries b = true) :
    extendEntries (extendEntries base a) b =
      extendEntries base (extendEntries a b) := by
  apply sortedEntries_lookup_ext
  · exact sortedEntries_extendEntries b _ (sortedEntries_extendEntries a base hbase)
  · exact sortedEntries_extendEntries (extendEntries a b) base hbase
  · intro k
    rw [lookupEntry_extendEntries hb, lookupEntry_extendEntries ha,
        lookupEntry_extendEntries (sortedEntries_extendEntries b a ha),
        lookupEntry_extendEntries hb, optionOr_assoc]

/-- Sortedness of an optional map field of a patch (BTreeMap invariant). -/
def optSortedEntries {V : Type} : Option (List (String × V)) → Bool
  | none => true
  | some m => sortedEntries m

/-- Sortedness of the set map inside an optional secrets patch. -/
def optSortedSecrets : Option SecretsPatch → Bool
  | none => true
  | some sp => sortedEntries sp.set

theorem mergePatch_eq (plan : ProvisionPlan) (patch : ProvisionPlanPatch) :
    plan.mergePatch patch = ProvisionPlan.mk
      (match patch.config_patch with
       | some cp => extendEntries plan.config_patch cp
       | none => plan.config_patch)
      (match patch.secrets_patch with
       | some sp => SecretsPatch.mk (extendEntries plan.secrets_patch.set sp.set)
           (plan.secrets_patch.delete ++ sp.delete)
       | none => plan.secrets_patch)
      (match patch.webhook_ops with
       | some ops => plan.webhook_ops ++ ops
       | none => plan.webhook_ops)
      (match patch.subscription_ops with
       | some ops => plan.subscription_ops ++ ops
       | none => plan.subscription_ops)
      (match patch.oauth_ops with
       | some ops => plan.oauth_ops ++ ops
       | none => plan.oauth_ops)
      (match patch.notes with
       | some ns => plan.notes ++ ns
       | none => plan.notes) := by
  obtain ⟨pc, psp, pw, psub, po, pn⟩ := patch
  obtain ⟨c, s, w, sub, o, n⟩ := plan
  cases pc <;> cases psp <;> cases pw <;> cases psub <;> cases po <;> cases pn <;> rfl

/-- C2: merging patch A and then patch B into a plan equals merging the
single patch obtained by combining A and B with the same rules (overwrite
for the map fields config_patch and secrets_patch.set, append for the list
fields secrets_patch.delete, webhook_ops, subscription_ops, oauth_ops and
notes; absent fields are no-ops), for inputs whose maps satisfy the
BTreeMap sorted-keys invariant. -/
theorem merge_patch_assoc (P : ProvisionPlan) (A B : ProvisionPlanPatch)
    (hPc : sortedEntries P.config_patch = true)
    (hPs : sortedEntries P.secrets_patch.set = true)
    (hAc : optSortedEntries A.config_patch = true)
    (hAs : optSortedSecrets A.secrets_patch = true)
    (hBc : optSortedEntries B.config_patch = true)
    (hBs : optSortedSecrets B.secrets_patch = true) :
    (P.mergePatch A).mergePatch B = P.mergePatch (mergePatches A B) := by
  obtain ⟨ac, asp, aw, asub, ao, an⟩ := A
  obtain ⟨bc, bsp, bw, bsub, bo, bn⟩ := B
  simp only [mergePatch_eq, mergePatches, ProvisionPlan.mk.injEq]
  refine ⟨?_, ?_, ?_, ?_, ?_, ?_⟩
  · cases ac with
    | none => cases bc <;> simp [mergeOptWith]
    | some a0 =>
        cases bc with
        | none => simp [mergeOptWith]
        | some b0 =>
            simp only [mergeOptWith]
            simp only [optSortedEntries] at hAc hBc
            exact extendEntries_assoc hPc hAc hBc
  · cases asp with
    | none => cases bsp <;> simp [mergeOptWith]
    | some a0 =>
        cases bsp with
        | none => simp [mergeOptWith]
        | some b0 =>
            simp only [mergeOptWith, SecretsPatch.mk.injEq]
            simp only [optSortedSecrets] at hAs hBs
            exact ⟨extendEntries_assoc hPs hAs hBs, List.append_assoc _ _ _⟩
  · cases aw <;> cases bw <;> simp [mergeOptWith, List.append_assoc]
  · cases asub <;> cases bsub <;> simp [mergeOptWith, List.append_assoc]
  · cases ao <;> cases bo <;> simp [mergeOptWith, List.append_assoc]
  · cases an <;> cases bn <;> simp [mergeOptWith, List.append_assoc]

/-- Base plan for the C2 witness. -/
def planW : ProvisionPlan :=
  { config_patch := [("alpha", JsonValue.str "x")],
    secrets_patch := { set := [("s1", RedactedValue.mk true none)], delete := ["d0"] },
    webhook_ops := [], subscription_ops := [], oauth_ops := [], notes := ["base"] }

/-- First patch for the C2 witness. -/
def patchAW : ProvisionPlanPatch :=
  { config_patch := some [("alpha", JsonValue.str "y"), ("beta", JsonValue.num 2)],
    secrets_patch := some { set := [("s2", RedactedValue.mk false (some "v"))],
                            delete := ["d1"] },
    webhook_ops := none, subscription_ops := none, oauth_ops := none,
    notes := some ["from-a"] }

/-- Second patch for the C2 witness. -/
def patchBW : ProvisionPlanPatch :=
  { config_patch := some [("beta", JsonValue.num 3)],
    secrets_patch := none, webhook_ops := none, subscription_ops := none,
    oauth_ops := some [OAuthOp.start "p" ["scope"] none],
    notes := some ["from-b"] }

/-- Witness for C2: the sortedness hypotheses hold and the merge equation
holds at the concrete plan and patches above. -/
theorem merge_patch_assoc_witness :
    (sortedEntries planW.config_patch = true
      ∧ sortedEntries planW.secrets_patch.set = true
      ∧ optSortedEntries patchAW.config_patch = true
      ∧ optSortedSecrets patchAW.secrets_patch = true
      ∧ optSortedEntries patchBW.config_patch = true
      ∧ optSortedSecrets patchBW.secrets_patch = true)
    ∧ (planW.mergePatch patchAW).mergePatch patchBW
        = planW.mergePatch (mergePatches patchAW patchBW) :=
  ⟨⟨rfl, rfl, rfl, rfl, rfl, rfl⟩,
    merge_patch_assoc planW patchAW patchBW rfl rfl rfl rfl rfl rfl⟩

/-- C1: for every executor, mode and inputs, ProvisionEngine::run returns a
ProvisionResult whose step_results has exactly four entries whose step
fields are Collect, Validate, Apply and Summary in that order, and each
step's context carries exactly the StepResults of the previously executed
steps in order (the first sees none, the second sees the first, and so on),
together with the cloned inputs, the mode, and the current step. -/
theorem engine_run_four_steps
    (ex : ProvisionStep → ProvisionContext → StepOutput)
    (mode : ProvisionMode) (inputs : ProvisionInputs) :
    ∃ r1 r2 r3 r4 : StepResult,
      (engineRun ex mode inputs).step_results = some [r1, r2, r3, r4]
      ∧ r1.step = ProvisionStep.collect
      ∧ r2.step = ProvisionStep.validate
      ∧ r3.step = ProvisionStep.apply
      ∧ r4.step = ProvisionStep.summary
      ∧ r1.output = ex ProvisionStep.collect
          (ProvisionContext.mk inputs mode ProvisionStep.collect [])
      ∧ r2.output = ex ProvisionStep.validate
          (ProvisionContext.mk inputs mode ProvisionStep.validate [r1])
      ∧ r3.output = ex ProvisionStep.apply
          (ProvisionContext.mk inputs mode ProvisionStep.apply [r1, r2])
      ∧ r4.output = ex ProvisionStep.summary
          (ProvisionContext.mk inputs mode ProvisionStep.summary [r1, r2, r3]) := by
  let ctx1 : ProvisionContext :=
    ProvisionContext.mk inputs mode ProvisionStep.collect []
  let r1 : StepResult :=
    StepResult.mk ProvisionStep.collect (ex ProvisionStep.collect ctx1)
  let ctx2 : ProvisionContext :=
    ProvisionContext.mk inputs mode ProvisionStep.validate [r1]
  let r2 : StepResult :=
    StepResult.mk ProvisionStep.validate (ex ProvisionStep.validate ctx2)
  let ctx3 : ProvisionContext :=
    ProvisionContext.mk inputs mode ProvisionStep.apply [r1, r2]
  let r3 : StepResult :=
    StepResult.mk ProvisionStep.apply (ex ProvisionStep.apply ctx3)
  let ctx4 : ProvisionContext :=
    ProvisionContext.mk inputs mode ProvisionStep.summary [r1, r2, r3]
  let r4 : StepResult :=
    StepResult.mk ProvisionStep.summary (ex ProvisionStep.summary ctx4)
  exact ⟨r1, r2, r3, r4, rfl, rfl, rfl, rfl, rfl, rfl, rfl, rfl, rfl⟩

theorem oauthStep_dryRun_foldl {S O : Type} (sOps : SecretsStoreOps S)
    (oOps : OAuthHandlerOps O) (secretsNs : String) :
    ∀ (ops : List OAuthOp) (sec : S) (oa : O) (acc : List OAuthOp),
      ops.foldl (oauthStep sOps oOps secretsNs ApplyMode.dryRun) (sec, oa, acc)
        = (sec, oa, acc ++ ops) := by
  intro ops
  induction ops with
  | nil => intro sec oa acc; simp
  | cons op rest ih =>
      intro sec oa acc
      simp only [List.foldl_cons, oauthStep]
      rw [if_neg (by simp : ¬(ApplyMode.dryRun = ApplyMode.apply))]
      rw [ih]
      simp

/-- C3: applying any ProvisionResult in DryRun mode mutates none of the four
stores — the final store states equal the initial ones for every possible
store implementation, so no mutating store method can have been invoked —
and the report lists the config_patch keys, the secrets_patch.set keys, the
cloned secrets_patch.delete list, and echoes oauth_ops. -/
theorem apply_dry_run_no_mutation {C S O I : Type}
    (cOps : ConfigStoreOps C) (sOps : SecretsStoreOps S)
    (oOps : OAuthHandlerOps O) (iOps : InstallStoreOps I)
    (inputs : ProvisionInputs) (st : ApplierState C S O I)
    (result : ProvisionResult) :
    (applierApply cOps sOps oOps iOps inputs st result ApplyMode.dryRun).1 = st
    ∧ (applierApply cOps sOps oOps iOps inputs st result ApplyMode.dryRun).2.config_changes
        = result.plan.config_patch.map Prod.fst
    ∧ (applierApply cOps sOps oOps iOps inputs st result ApplyMode.dryRun).2.secret_set_keys
        = result.plan.secrets_patch.set.map Prod.fst
    ∧ (applierApply cOps sOps oOps iOps inputs st result ApplyMode.dryRun).2.secret_deleted_keys
        = result.plan.secrets_patch.delete
    ∧ (applierApply cOps sOps oOps iOps inputs st result ApplyMode.dryRun).2.oauth_ops
        = result.plan.oauth_ops := by
  obtain ⟨stc, sts, sto, sti⟩ := st
  simp only [applierApply]
  rw [if_neg (by simp : ¬(ApplyMode.dryRun = ApplyMode.apply))]
  rw [if_neg (by simp : ¬(ApplyMode.dryRun = ApplyMode.apply))]
  rw [oauthStep_dryRun_foldl]
  simp

/-- Observable secrets-store operation, used to log every SecretsStore
method invocation performed by the applier. -/
inductive SecretEvent where
  | set (ns key value : String)
  | delete (ns key : String)
deriving DecidableEq

/-- SecretsStore implementation whose state is the list of performed
operations. -/
def logSecretsOps : SecretsStoreOps (List SecretEvent) :=
  { setSecret := fun log ns key value => log ++ [SecretEvent.set ns key value],
    deleteSecret := fun log ns key => log ++ [SecretEvent.delete ns key] }

/-- Trivial ConfigStore (returns no changed keys). -/
def unitConfigOps : ConfigStoreOps Unit :=
  { applyPatch := fun _ _ _ => ((), []) }

/-- apply.rs NoopOAuthHandler: start always returns None. -/
def noopOAuthOps : OAuthHandlerOps Unit :=
  { start := fun _ _ => ((), none) }

/-- Trivial InstallStore. -/
def unitInstallOps : InstallStoreOps Unit :=
  { put := fun _ _ => () }

theorem secretSetStep_foldl_log (ns : String) :
    ∀ (entries : List (String × RedactedValue)) (log : List SecretEvent)
      (acc : List String),
      entries.foldl (secretSetStep logSecretsOps ns) (log, acc)
        = (log ++ entries.filterMap (fun kv =>
              (redactedToValue kv.2).map (fun v => SecretEvent.set ns kv.1 v)),
           acc ++ entries.filterMap (fun kv =>
              (redactedToValue kv.2).map (fun _ => kv.1))) := by
  intro entries
  induction entries with
  | nil => intro log acc; simp
  | cons kv rest ih =>
      intro log acc
      cases hrv : redactedToValue kv.2 with
      | none =>
          simp only [List.foldl_cons, secretSetStep, hrv]
          rw [ih]
          simp [hrv]
      | some v =>
          simp only [List.foldl_cons, secretSetStep, hrv]
          rw [ih]
          simp [hrv, logSecretsOps, List.append_assoc]

theorem secretSetStep_foldl_keys {S : Type} (sOps : SecretsStoreOps S)
    (ns : String) :
    ∀ (entries : List (String × RedactedValue)) (s : S) (acc : List String),
      (entries.foldl (secretSetStep sOps ns) (s, acc)).2
        = acc ++ entries.filterMap (fun kv =>
            (redactedToValue kv.2).map (fun _ => kv.1)) := by
  intro entries
  induction entries with
  | nil => intro s acc; simp
  | cons kv rest ih =>
      intro s acc
      cases hrv : redactedToValue kv.2 with
      | none =>
          simp only [List.foldl_cons, secretSetStep, hrv]
          rw [ih]
          simp [hrv]
      | some v =>
          simp only [List.foldl_cons, secretSetStep, hrv]
          rw [ih]
          simp [hrv, List.append_assoc]

theorem secretDeleteStep_foldl_log (ns : String) :
    ∀ (keys : List String) (log : List SecretEvent) (acc : List String),
      keys.foldl (secretDeleteStep logSecretsOps ns) (log, acc)
        = (log ++ keys.map (fun key => SecretEvent.delete ns key), acc ++ keys) := by
  intro keys
  induction keys with
  | nil => intro log acc; simp
  | cons key rest ih =>
      intro log acc
      simp only [List.foldl_cons, secretDeleteStep]
      rw [ih]
      simp [logSecretsOps, List.append_assoc]

theorem oauthStep_noop {S : Type} (sOps : SecretsStoreOps S) (ns : String)
    (mode : ApplyMode) (sec : S) (acc : List OAuthOp) (op : OAuthOp) :
    oauthStep sOps noopOAuthOps ns mode (sec, (), acc) op = (sec, (), acc ++ [op]) := by
  by_cases hm : mode = ApplyMode.apply
  · subst hm
    rfl
  · simp only [oauthStep]
    rw [if_neg hm]

theorem oauthStep_noop_foldl {S : Type} (sOps : SecretsStoreOps S)
    (ns : String) (mode : ApplyMode) :
    ∀ (ops : List OAuthOp) (sec : S) (oa : Unit) (acc : List OAuthOp),
      ops.foldl (oauthStep sOps noopOAuthOps ns mode) (sec, oa, acc)
        = (sec, oa, acc ++ ops) := by
  intro ops
  induction ops with
  | nil => intro sec oa acc; simp
  | cons op rest ih =>
      intro sec oa acc
      cases oa
      rw [List.foldl_cons, oauthStep_noop, ih]
      simp [List.append_assoc]

theorem setEvent_fun_eq (ns : String) : ∀ kv : String × RedactedValue,
    (redactedToValue kv.2).map (fun v => SecretEvent.set ns kv.1 v)
      = match kv.2.redacted, kv.2.value with
        | false, some v => some (SecretEvent.set ns kv.1 v)
        | _, _ => none := by
  intro kv
  obtain ⟨k, rv⟩ := kv
  obtain ⟨r, v⟩ := rv
  cases r <;> cases v <;> rfl

/-- C4: applying a plan with mode Apply calls set_secret on the secrets
store, under the derived secrets namespace, exactly for the entries of
secrets_patch.set whose redacted flag is false and whose value is present,
in map order (redacted entries are skipped with no write); afterwards
delete_secret is called for each key of secrets_patch.delete. Stated over a
secrets store that logs every invocation, a no-op OAuth handler (so no
oauth-token writes occur), and arbitrary inputs, plan and initial log. -/
theorem apply_secret_writes_filter (inputs : ProvisionInputs)
    (result : ProvisionResult) (st0 : List SecretEvent) :
    ((applierApply unitConfigOps logSecretsOps noopOAuthOps unitInstallOps inputs
        (ApplierState.mk () st0 () ()) result ApplyMode.apply).1).secrets
      = st0
        ++ result.plan.secrets_patch.set.filterMap (fun kv =>
            match kv.2.redacted, kv.2.value with
            | false, some v => some (SecretEvent.set
                (provisionNamespace inputs.tenant inputs.provider_id
                  inputs.install_id ++ ":secrets") kv.1 v)
            | _, _ => none)
        ++ result.plan.secrets_patch.delete.map (fun key => SecretEvent.delete
            (provisionNamespace inputs.tenant inputs.provider_id
              inputs.install_id ++ ":secrets") key) := by
  have hfun := funext (setEvent_fun_eq
    (provisionNamespace inputs.tenant inputs.provider_id inputs.install_id
      ++ ":secrets"))
  simp only [applierApply]
  simp only [secretSetStep_foldl_log, secretDeleteStep_foldl_log,
    oauthStep_noop_foldl]
  simp [← hfun, List.append_assoc]

theorem keyOfWrite_fun_eq : ∀ kv : String × RedactedValue,
    (redactedToValue kv.2).map (fun _ => kv.1)
      = if kv.2.redacted = false ∧ kv.2.value.isSome = true then some kv.1
        else none := by
  intro kv
  obtain ⟨k, rv⟩ := kv
  obtain ⟨r, v⟩ := rv
  cases r <;> cases v <;> simp [redactedToValue]

/-- C10: for the same ProvisionResult, the reported secret_set_keys depends
on the mode: in DryRun it is every key of secrets_patch.set (redacted
entries included), while in Apply it is exactly the keys of the entries
with redacted = false and a present value — an entry with redacted = false
but an absent value is silently skipped (not reported, and by C4 not
written) — so a fully redacted plan reports no secret_set_keys under
Apply. Stated over arbitrary store implementations. -/
theorem report_secret_keys_by_mode {C S O I : Type}
    (cOps : ConfigStoreOps C) (sOps : SecretsStoreOps S)
    (oOps : OAuthHandlerOps O) (iOps : InstallStoreOps I)
    (inputs : ProvisionInputs) (st : ApplierState C S O I)
    (result : ProvisionResult) :
    (applierApply cOps sOps oOps iOps inputs st result ApplyMode.dryRun).2.secret_set_keys
        = result.plan.secrets_patch.set.map Prod.fst
    ∧ (applierApply cOps sOps oOps iOps inputs st result ApplyMode.apply).2.secret_set_keys
        = result.plan.secrets_patch.set.filterMap (fun kv =>
            if kv.2.redacted = false ∧ kv.2.value.isSome = true then some kv.1
            else none)
    ∧ ((∀ kv ∈ result.plan.secrets_patch.set, kv.2.redacted = true) →
        (applierApply cOps sOps oOps iOps inputs st result ApplyMode.apply).2.secret_set_keys
          = []) := by
  have hfun := funext keyOfWrite_fun_eq
  have hdry : (applierApply cOps sOps oOps iOps inputs st result
      ApplyMode.dryRun).2.secret_set_keys
      = result.plan.secrets_patch.set.map Prod.fst := by
    simp only [applierApply]
    simp
  have happ : (applierApply cOps sOps oOps iOps inputs st result
      ApplyMode.apply).2.secret_set_keys
      = result.plan.secrets_patch.set.filterMap (fun kv =>
          if kv.2.redacted = false ∧ kv.2.value.isSome = true then some kv.1
          else none) := by
    simp only [applierApply]
    simp only [secretSetStep_foldl_keys]
    simp [← hfun]
  refine ⟨hdry, happ, ?_⟩
  intro hall
  rw [happ]
  rw [List.filterMap_eq_nil_iff]
  intro kv hkv
  rw [if_neg]
  intro hcontra
  rw [hall kv hkv] at hcontra
  exact Bool.noConfusion hcontra.1

/-- Inputs for the C10 witness. -/
def inputsW : ProvisionInputs :=
  { tenant := { environment := none, tenant := none, team := none, user := none },
    provider_id := "prov", install_id := "inst", public_base_url := none,
    answers := JsonValue.null, existing_state := none }

/-- Fully redacted result for the C10 witness. -/
def resultW : ProvisionResult :=
  { plan := { config_patch := [],
              secrets_patch := { set := [("tok", RedactedValue.mk true none)],
                                 delete := [] },
              webhook_ops := [], subscription_ops := [], oauth_ops := [],
              notes := [] },
    diagnostics := [], step_results := none }

/-- Witness for C10: the fully redacted concrete plan satisfies the
hypothesis of the third conjunct, and applying it reports no
secret_set_keys. -/
theorem report_secret_keys_by_mode_witness :
    (∀ kv ∈ resultW.plan.secrets_patch.set, kv.2.redacted = true)
    ∧ (applierApply unitConfigOps logSecretsOps noopOAuthOps unitInstallOps
        inputsW (ApplierState.mk () [] () ()) resultW
        ApplyMode.apply).2.secret_set_keys = [] :=
  ⟨by decide,
    (report_secret_keys_by_mode unitConfigOps logSecretsOps noopOAuthOps
      unitInstallOps inputsW (ApplierState.mk () [] () ()) resultW).2.2
      (by decide)⟩

/-- First path of the list that exists on the filesystem. -/
def firstExisting (exists? : String → Bool) : List String → Option String
  | [] => none
  | path :: rest => if exists? path then some path else firstExisting exists? rest

/-- The probe paths of one candidate: for each root in order, the .wasm
path then the .wat path. -/
def rootPaths (candidate : String) : List String → List String
  | [] => []
  | root :: rest =>
      (root ++ "/" ++ candidate ++ ".wasm")
        :: (root ++ "/" ++ candidate ++ ".wat")
        :: rootPaths candidate rest

/-- The full probe order of component resolution: for each candidate name
in order, its root paths. -/
def candidatePaths (roots : List String) : List String → List String
  | [] => []
  | candidate :: rest => rootPaths candidate roots ++ candidatePaths roots rest

theorem firstExisting_append (exists? : String → Bool) :
    ∀ (l1 l2 : List String),
      firstExisting exists? (l1 ++ l2)
        = optionOr (firstExisting exists? l1) (firstExisting exists? l2) := by
  intro l1 l2
  induction l1 with
  | nil => simp [firstExisting, optionOr]
  | cons path rest ih =>
      simp only [List.cons_append, firstExisting]
      by_cases hp : exists? path = true
      · rw [if_pos hp, if_pos hp]
        rfl
      · rw [if_neg hp, if_neg hp]
        exact ih

theorem searchRoots_eq (exists? : String → Bool) (candidate : String) :
    ∀ (roots : List String),
      searchRoots exists? candidate roots
        = firstExisting exists? (rootPaths candidate roots) := by
  intro roots
  induction roots with
  | nil => rfl
  | cons root rest ih =>
      simp only [searchRoots, rootPaths, firstExisting]
      by_cases hw : exists? (root ++ "/" ++ candidate ++ ".wasm") = true
      · rw [if_pos hw, if_pos hw]
      · rw [if_neg hw, if_neg hw]
        by_cases ht : exists? (root ++ "/" ++ candidate ++ ".wat") = true
        · rw [if_pos ht, if_pos ht]
        · rw [if_neg ht, if_neg ht, ih]

theorem searchCandidates_eq (exists? : String → Bool) (roots : List String) :
    ∀ (candidates : List String),
      searchCandidates exists? roots candidates
        = firstExisting exists? (candidatePaths roots candidates) := by
  intro candidates
  induction candidates with
  | nil => rfl
  | cons candidate rest ih =>
      simp only [searchCandidates, candidatePaths]
      rw [firstExisting_append, ← searchRoots_eq, ih]
      cases searchRoots exists? candidate roots <;> simp [optionOr]

/-- C5 (amended): component resolution probes, in order, each candidate
name (setup_default__{step} then setup_default), and per candidate each
root (pack/components, pack/wasm, pack) in order, checking .wasm before
.wat within a root; the first existing file wins — so a .wat found under an
earlier root beats a .wasm under a later root for the same candidate — and
when no probe path exists it fails with ComponentNotFound(step). -/
theorem resolve_component_search_order (exists? : String → Bool)
    (packRoot stepName : String) :
    resolveComponent exists? packRoot stepName
      = match firstExisting exists?
          (candidatePaths
            [packRoot ++ "/components", packRoot ++ "/wasm", packRoot]
            ["setup_default__" ++ stepName, "setup_default"]) with
        | some path => Except.ok path
        | none => Except.error (ExecutorError.componentNotFound stepName) := by
  simp only [resolveComponent, searchCandidates_eq]

/-- Filesystem for the C5 counterexample: the first candidate's .wat exists
under components/ and its .wasm exists under wasm/. -/
def cexFs : String → Bool := fun path =>
  path == "p/components/setup_default__collect.wat"
    || path == "p/wasm/setup_default__collect.wasm"

/-- Counterexample to C5 as stated: although a .wasm for the candidate
setup_default__collect exists (under the wasm/ root), resolution returns
the .wat found under the earlier components/ root, so a .wasm in some
search root is not preferred over a .wat in any root. -/
theorem resolve_component_wat_over_wasm_cex :
    cexFs "p/wasm/setup_default__collect.wasm" = true
    ∧ resolveComponent cexFs "p" "collect"
        = Except.ok "p/components/setup_default__collect.wat"
    ∧ "p/components/setup_default__collect.wat"
        ≠ "p/wasm/setup_default__collect.wasm" :=
  ⟨rfl, rfl, by decide⟩

/-- C6: whenever the fallible run_named_step entry point returns any
ExecutorError (resolution, I/O, compile, memory, trap, output-size or
decode failure), the WasmtimeExecutor run_step wrapper returns a StepOutput
whose data is the object with the error message under "error" and the step
name under "step", with empty diagnostics, no plan_patch and no questions;
being a total function of the error, the wrapper never panics and the
pipeline is never aborted. -/
theorem run_step_error_envelope
    (runNamed : String → ProvisionContext → Except ExecutorError StepOutput)
    (step : ProvisionStep) (ctx : ProvisionContext) (err : ExecutorError)
    (h : runNamed (stepNameOf step) ctx = Except.error err) :
    wasmRunStep runNamed step ctx
      = { data := JsonValue.obj
            [("error", JsonValue.str err.message),
             ("step", JsonValue.str (stepNameOf step))],
          diagnostics := [], plan_patch := none, questions := none } := by
  simp only [wasmRunStep, h]

/-- Context used by the C6 witness. -/
def ctxW : ProvisionContext :=
  { inputs := inputsW, mode := ProvisionMode.dryRun,
    step := ProvisionStep.collect, prior_results := [] }

/-- Witness for C6: a run_named_step that traps on the collect step makes
run_step return the error envelope. -/
theorem run_step_error_envelope_witness :
    (fun (_ : String) (_ : ProvisionContext) =>
        (Except.error (ExecutorError.trap "boom") :
          Except ExecutorError StepOutput)) (stepNameOf ProvisionStep.collect) ctxW
      = Except.error (ExecutorError.trap "boom")
    ∧ wasmRunStep (fun _ _ => Except.error (ExecutorError.trap "boom"))
        ProvisionStep.collect ctxW
      = { data := JsonValue.obj
            [("error", JsonValue.str (ExecutorError.trap "boom").message),
             ("step", JsonValue.str (stepNameOf ProvisionStep.collect))],
          diagnostics := [], plan_patch := none, questions := none } :=
  ⟨rfl, run_step_error_envelope (fun _ _ => Except.error (ExecutorError.trap "boom"))
    ProvisionStep.collect ctxW (ExecutorError.trap "boom") rfl⟩

/-- The alias-only manifest of the C7 counterexample: no id field, only the
legacy pack_id alias. -/
def aliasOnlyManifestValue : JsonValue :=
  JsonValue.obj [("pack_id", JsonValue.str "legacy-pack"),
                 ("version", JsonValue.str "1.0.0")]

/-- Counterexample to C7 as stated: for a JSON-encoded manifest the
normalization rules are not applied before deserializing — an alias-only
manifest fails on the JSON path with a missing-id error, while the same
decoded value succeeds on the CBOR path (where normalization runs as a
fallback and collapses pack_id into id). -/
theorem manifest_json_alias_cex :
    loadManifestJson aliasOnlyManifestValue = Except.error "missing field: id"
    ∧ loadManifestCbor aliasOnlyManifestValue
        = Except.ok (PackManifest.mk "legacy-pack" "1.0.0" PackMeta.default []) :=
  ⟨rfl, rfl⟩

/-- C7 (amended): normalization (nested-object descent, pack_id/packId
collapse into id including numeric resolution through symbols.pack_ids, and
pack_version/packVersion collapse into version) is applied only on the CBOR
path, and there only as a fallback after direct deserialization of the
decoded value fails; the JSON path deserializes directly and reports the
direct deserialization error. -/
theorem manifest_normalization_cbor_only (v : JsonValue) (e : String)
    (h : deserPackManifest v = Except.error e) :
    loadManifestJson v = Except.error e
    ∧ loadManifestCbor v
        = (match normalizeManifestValue v with
           | some normalized => deserPackManifest normalized
           | none => Except.error "unsupported CBOR manifest shape") := by
  constructor
  · exact h
  · simp only [loadManifestCbor, h]

/-- Witness for C7 (amended) at the alias-only manifest. -/
theorem manifest_normalization_cbor_only_witness :
    deserPackManifest aliasOnlyManifestValue = Except.error "missing field: id"
    ∧ (loadManifestJson aliasOnlyManifestValue = Except.error "missing field: id"
       ∧ loadManifestCbor aliasOnlyManifestValue
          = (match normalizeManifestValue aliasOnlyManifestValue with
             | some normalized => deserPackManifest normalized
             | none => Except.error "unsupported CBOR manifest shape")) :=
  ⟨rfl, manifest_normalization_cbor_only aliasOnlyManifestValue
    "missing field: id" rfl⟩

/-- The S4 manifest of claim C8, as decoded from CBOR. -/
def s4ManifestValue : JsonValue :=
  JsonValue.obj [
    ("pack_id", JsonValue.num 0),
    ("version", JsonValue.str "0.4.18"),
    ("symbols", JsonValue.obj
      [("pack_ids", JsonValue.arr [JsonValue.str "messaging-telegram"])]),
    ("flows", JsonValue.arr [JsonValue.obj
      [("id", JsonValue.str "setup_default"),
       ("entrypoints", JsonValue.arr [JsonValue.str "setup"])]])]

/-- C8 (evaluation at the failing input): normalization does resolve the
indexed pack_id and version — the manifest deserializes with
id = messaging-telegram and version = 0.4.18 — but the flow record keeps
only entry, id and name, so the entrypoints field is dropped, no flow
matches the setup entry, and discovery returns no descriptor instead of one
with setup_entry_flow = setup_default. -/
theorem s4_indexed_pack_id_discovery_fails :
    loadManifestCbor s4ManifestValue
      = Except.ok (PackManifest.mk "messaging-telegram" "0.4.18" PackMeta.default
          [PackFlow.mk none (some "setup_default") none])
    ∧ discover (PackManifest.mk "messaging-telegram" "0.4.18" PackMeta.default
          [PackFlow.mk none (some "setup_default") none]) = none :=
  ⟨rfl, rfl⟩

/-- C9: the conformance check flags the redaction error exactly when some
entry of plan.secrets_patch.set has redacted = false or a present value; in
particular a plan whose every entry is redacted with an absent value passes
the redaction check. Stated for every (pure, hence deterministic) plan
serializer. -/
theorem conformance_redaction_iff (serializePlan : ProvisionPlan → String)
    (result : ProvisionResult) :
    "secrets_patch contains non-redacted values"
        ∈ checkConformance serializePlan result
      ↔ ∃ kv ∈ result.plan.secrets_patch.set,
          kv.2.redacted = false ∨ kv.2.value.isSome = true := by
  simp only [checkConformance, ne_eq, not_true_eq_false, if_neg, ite_false]
  by_cases hany : result.plan.secrets_patch.set.any
      (fun kv => !kv.2.redacted || kv.2.value.isSome) = true
  · rw [if_pos hany]
    simp only [List.any_eq_true, Bool.or_eq_true, Bool.not_eq_true'] at hany
    simp [hany]
  · rw [if_neg hany]
    simp only [List.any_eq_true, Bool.or_eq_true, Bool.not_eq_true'] at hany
    simp [hany]
